import Mathlib

/-!
Verification of the `citation_check` repository.

The repository consists of three Python scripts:
  * `citation-R01.py`   — the Year-Context Extractor (`extract_years_with_fixed_context`
    plus the deduplication loop in `main`);
  * `citation-2-R01.py` — the Bibliography Segmenter
    (`extract_bib_entries_full_line_context`, `process_entry`) and the Matcher
    (`find_matches_by_full_pretext`);
  * `citation-2-R02.py` — a copy of `citation-2-R01.py` with identical core
    functions and a file-output wrapper.

Strings are modelled as lists of Unicode code points (`List Char`), exactly the
sequence-of-code-points view Python 3 has of `str`.  Character classes of the
Python `re` module (`\w`, `\d`, `\b`, whitespace for `str.strip`) are modelled
for the character repertoire this program processes: ASCII letters/digits,
underscore, and the CJK Unified Ideographs block U+4E00–U+9FFF that every regex
in the sources names explicitly.  `Char.toLower` models `str.lower`, which on
this repertoire lowercases ASCII letters and fixes everything else.
-/

abbrev Str := List Char

/-- Model of Python `\d` (decimal digits, ASCII repertoire). -/
def pyDigit (c : Char) : Bool := c.isDigit

/-- Characters of the CJK Unified Ideographs block `[一-鿿]`
used by the keyword regexes of `process_entry` and
`find_matches_by_full_pretext`. -/
def isCJK (c : Char) : Bool := 0x4e00 ≤ c.toNat && c.toNat ≤ 0x9fff

/-- Model of Python `\w` (word character) on the program's character
repertoire: ASCII alphanumerics, underscore, and CJK ideographs. -/
def pythonWordChar (c : Char) : Bool := c.isAlphanum || c == '_' || isCJK c

/-- ASCII Latin letters, the class `[a-zA-Z]` of the keyword regexes. -/
def isLatinLetter (c : Char) : Bool := c.isAlpha

/-- Opening bracket class `[（(]` of the year regexes of `citation-2-R01.py`. -/
def isOpenParen (c : Char) : Bool := c == '(' || c == '（'

/-- Closing bracket class `[）)]` of the year regexes of `citation-2-R01.py`. -/
def isCloseParen (c : Char) : Bool := c == ')' || c == '）'

/-- The trailing-punctuation class `[.,;，。；、]` of the cleanup
`re.sub(r'[.,;，。；、]\s*$', '', pre_full_text)` in `process_entry`. -/
def isTrailPunct (c : Char) : Bool :=
  c == '.' || c == ',' || c == ';' || c == '，' || c == '。' || c == '；' || c == '、'

/-- Model of Python `str.strip()`: remove leading and trailing whitespace. -/
def pyStrip (s : Str) : Str :=
  ((s.dropWhile Char.isWhitespace).reverse.dropWhile Char.isWhitespace).reverse

/-- Model of `re.sub(r'[.,;，。；、]\s*$', '', s)` applied, as in
`process_entry`, to a string that has already been stripped (so the `\s*`
part of the pattern can only match the empty string): remove one trailing
punctuation character if present. -/
def stripPunctEnd (s : Str) : Str :=
  match s.getLast? with
  | some c => if isTrailPunct c then s.dropLast else s
  | none => s

/-- `listPrefixOf n h` decides whether `n` is a leading segment of `h`
(Python `h.startswith(n)`, used below to model `str.find` and `in`). -/
def listPrefixOf : Str → Str → Bool
  | [], _ => true
  | _ :: _, [] => false
  | a :: as, b :: bs => a == b && listPrefixOf as bs

theorem listPrefixOf_iff (n h : Str) : listPrefixOf n h = true ↔ ∃ t, h = n ++ t := by
  induction n generalizing h with
  | nil => simp [listPrefixOf]
  | cons a as ih =>
    cases h with
    | nil => simp [listPrefixOf]
    | cons b bs =>
      simp only [listPrefixOf, Bool.and_eq_true, beq_iff_eq, ih, List.cons_append,
        List.cons.injEq]
      constructor
      · rintro ⟨rfl, t, rfl⟩; exact ⟨t, rfl, rfl⟩
      · rintro ⟨t, rfl, rfl⟩; exact ⟨rfl, t, rfl⟩

/-- Leftmost-search loop: `searchFromAux p fuel i` returns the least index
`q` with `i ≤ q < i + fuel` and `p q`, scanning upward from `i`.  It is the
shared model of `re.search` (leftmost match of a fixed-length pattern) and
of `str.find`. -/
def searchFromAux (p : Nat → Bool) : Nat → Nat → Option Nat
  | 0, _ => none
  | fuel + 1, i => if p i then some i else searchFromAux p fuel (i + 1)

theorem searchFromAux_some (p : Nat → Bool) :
    ∀ fuel i q, searchFromAux p fuel i = some q →
      i ≤ q ∧ q < i + fuel ∧ p q = true ∧ ∀ r, i ≤ r → r < q → p r = false := by
  intro fuel
  induction fuel with
  | zero => intro i q h; simp [searchFromAux] at h
  | succ n ih =>
    intro i q h
    by_cases hp : p i
    · simp [searchFromAux, hp] at h
      subst h
      exact ⟨Nat.le_refl _, by omega, hp, fun r h1 h2 => absurd h1 (by omega)⟩
    · simp [searchFromAux, hp] at h
      obtain ⟨h1, h2, h3, h4⟩ := ih (i + 1) q h
      refine ⟨by omega, by omega, h3, fun r hr1 hr2 => ?_⟩
      rcases Nat.eq_or_lt_of_le hr1 with rfl | hlt
      · exact Bool.eq_false_iff.mpr hp
      · exact h4 r hlt hr2

theorem searchFromAux_none (p : Nat → Bool) :
    ∀ fuel i, searchFromAux p fuel i = none →
      ∀ r, i ≤ r → r < i + fuel → p r = false := by
  intro fuel
  induction fuel with
  | zero => intro i _ r h1 h2; omega
  | succ n ih =>
    intro i h r h1 h2
    by_cases hp : p i
    · simp [searchFromAux, hp] at h
    · simp [searchFromAux, hp] at h
      rcases Nat.eq_or_lt_of_le h1 with rfl | hlt
      · exact Bool.eq_false_iff.mpr hp
      · exact ih (i + 1) h r hlt (by omega)

theorem searchFromAux_isSome (p : Nat → Bool) (fuel i q : Nat)
    (h1 : i ≤ q) (h2 : q < i + fuel) (h3 : p q = true) :
    (searchFromAux p fuel i).isSome := by
  cases hs : searchFromAux p fuel i with
  | some v => rfl
  | none => exact absurd (searchFromAux_none p fuel i hs q h1 h2) (by simp [h3])

/-- Model of Python `h.find(n)`: index of the leftmost occurrence of `n`
as a contiguous segment of `h`, or `none` where Python returns `-1`. -/
def findSub (n h : Str) : Option Nat :=
  searchFromAux (fun i => listPrefixOf n (h.drop i)) (h.length + 1) 0

/-- Model of Python `n in h` (substring containment). -/
def containsSub (n h : Str) : Bool := (findSub n h).isSome

theorem containsSub_iff (n h : Str) :
    containsSub n h = true ↔ ∃ l r, h = l ++ n ++ r := by
  constructor
  · intro hc
    rw [containsSub, Option.isSome_iff_exists] at hc
    obtain ⟨q, hq⟩ := hc
    obtain ⟨-, -, hpre, -⟩ := searchFromAux_some _ _ _ _ hq
    obtain ⟨t, ht⟩ := (listPrefixOf_iff n (h.drop q)).mp hpre
    exact ⟨h.take q, t, by rw [List.append_assoc, ← ht, List.take_append_drop]⟩
  · rintro ⟨l, r, rfl⟩
    rw [containsSub, findSub]
    apply searchFromAux_isSome _ _ _ l.length (Nat.zero_le _)
    · have hlen : l.length ≤ (l ++ n ++ r).length := by
        simp [List.length_append]
      omega
    · rw [List.append_assoc, List.drop_left]
      exact (listPrefixOf_iff n (n ++ r)).mpr ⟨r, rfl⟩

/-- `isYearParenAt s p` holds when the 6-character pattern
`[（(]\d{4}[）)]` of `extract_bib_entries_full_line_context` and
`process_entry` matches `s` at index `p`. -/
def isYearParenAt (s : Str) (p : Nat) : Bool :=
  match s.drop p with
  | b :: d1 :: d2 :: d3 :: d4 :: c :: _ =>
      isOpenParen b && pyDigit d1 && pyDigit d2 && pyDigit d3 && pyDigit d4 && isCloseParen c
  | _ => false

/-- Model of `re.search(r'[（(](\d{4})[）)]', s)`: index of the leftmost
match of the parenthesized-year pattern, or `none`. -/
def searchYearParen (s : Str) : Option Nat :=
  searchFromAux (isYearParenAt s) s.length 0

/-- Truthiness of `re.search(r'[（(]\d{4}[）)]', s)`, the new-entry test of
`extract_bib_entries_full_line_context`. -/
def hasYearParen (s : Str) : Bool := (searchYearParen s).isSome

/-- Left-to-right run scanner: `cur` is the run currently being built, in
reverse.  A character satisfying `p` extends the current run; any other
character closes it. -/
def runsOfAux (p : Char → Bool) (cur : Str) : Str → List Str
  | [] => if cur = [] then [] else [cur.reverse]
  | c :: cs =>
    if p c then runsOfAux p (c :: cur) cs
    else if cur = [] then runsOfAux p [] cs
    else cur.reverse :: runsOfAux p [] cs

/-- Maximal runs of characters satisfying `p`, in order of occurrence: the
semantics of `re.findall(r'X+', s)` for a single character class `X`. -/
def runsOf (p : Char → Bool) (s : Str) : List Str := runsOfAux p [] s

/-- Model of `re.findall(r'[一-鿿]+', s)`: maximal CJK runs. -/
def cjkTokens (s : Str) : List Str := runsOf isCJK s

/-- Model of `re.findall(r'\b[a-zA-Z]+\b', s)`.  A match of that pattern is
a maximal run of word characters consisting entirely of Latin letters: the
leading `\b` forbids a word character immediately before the letters, the
trailing `\b` forbids one immediately after, and `[a-zA-Z]+` is greedy, so a
maximal word run containing a non-letter word character (digit, underscore,
CJK) contributes nothing. -/
def latinTokens (s : Str) : List Str :=
  (runsOf pythonWordChar s).filter (fun r => r.all isLatinLetter)

/-- `words` of `process_entry` / `snippet_words` of
`find_matches_by_full_pretext`: CJK tokens followed by Latin tokens. -/
def tokenize (s : Str) : List Str := cjkTokens s ++ latinTokens s

/-- `{w.lower() for w in words if len(w) >= 2}`: the keyword set of a text
span, shared verbatim by `process_entry` (bibliography side) and
`find_matches_by_full_pretext` (snippet side). -/
def kwSet (s : Str) : Finset Str :=
  (((tokenize s).filter (fun w => 2 ≤ w.length)).map (fun w => w.map Char.toLower)).toFinset

/-- Keyword set of a bibliography entry including the fallback branch of
`process_entry`: if the tokenized set is empty and `pre` is non-empty, the
sole keyword is `re.sub(r'[^\w一-鿿]', '', pre)[:10].lower()`
(keep word characters, truncate to 10, lowercase), kept only if non-empty. -/
def entryKeywords (pre : Str) : Finset Str :=
  let kws := kwSet pre
  if kws.card = 0 ∧ pre ≠ [] then
    let fb := ((pre.filter pythonWordChar).take 10).map Char.toLower
    if fb = [] then ∅ else {fb}
  else kws

/-- The bibliography-entry record built by `process_entry`.  The Python dict
also carries the purely presentational fields `display_pre` and
`top_keywords` (a truncation of `pre_full_text` and an arbitrary slice of
the keyword set), which no computation reads; they are omitted. -/
structure BibEntry where
  original_line : Str
  year : Str
  pre_full_text : Str
  keywords : Finset Str
  deriving DecidableEq

/-- `process_entry` of `citation-2-R01.py`: locate the leftmost
parenthesized 4-digit year, take the year digits, find the first occurrence
of (matched opening bracket ++ year) with `str.find`, and build the entry
from the stripped, punctuation-cleaned text before that position.  Python
signals the two failure branches by returning without appending; the model
returns `none` there. -/
def process_entry (entry_line : Str) : Option BibEntry :=
  match searchYearParen entry_line with
  | none => none
  | some p =>
    let year := (entry_line.drop (p + 1)).take 4
    let left_bracket := (entry_line.drop p).take 1
    match findSub (left_bracket ++ year) entry_line with
    | none => none
    | some bpos =>
      let pre := stripPunctEnd (pyStrip (entry_line.take bpos))
      some { original_line := entry_line, year := year,
             pre_full_text := pre, keywords := entryKeywords pre }

/-- One iteration of the line loop of
`extract_bib_entries_full_line_context`: the state is the pair
(current accumulation `current_entry`, entries emitted so far). -/
def bibStep (st : Str × List BibEntry) (line : Str) : Str × List BibEntry :=
  let stripped := pyStrip line
  if stripped ≠ [] ∧ hasYearParen stripped then
    (stripped, if st.1 ≠ [] then st.2 ++ (process_entry st.1).toList else st.2)
  else if st.1 ≠ [] ∧ stripped ≠ [] then
    (st.1 ++ ' ' :: stripped, st.2)
  else st

/-- `extract_bib_entries_full_line_context`, taking the result of
`content.splitlines()` as its input: fold the line loop from the empty
state, then process the final accumulation if non-empty. -/
def extract_bib_entries (lines : List Str) : List BibEntry :=
  let st := lines.foldl bibStep ([], [])
  if st.1 ≠ [] then st.2 ++ (process_entry st.1).toList else st.2

/-- `matchYearDigits s` holds when `s` is exactly the 4-digit body of the
year pattern `(19\d{2}|20\d{2})` of `extract_years_with_fixed_context`. -/
def matchYearDigits : Str → Bool
  | [a, b, c, d] =>
      ((a == '1' && b == '9') || (a == '2' && b == '0')) && pyDigit c && pyDigit d
  | _ => false

/-- `isYearTokenAt text p` holds when the pattern
`\b(19\d{2}|20\d{2})\b` of `extract_years_with_fixed_context` matches
`text` at index `p`: four digits starting `19` or `20`, with no word
character immediately before index `p` nor immediately after index `p + 3`.
Because the two context characters (when present) are non-word while the
four matched characters are digits, distinct matches can never overlap, so
the match set of `re.finditer` is exactly the set of indices satisfying
this predicate, visited in increasing order. -/
def isYearTokenAt (text : Str) (p : Nat) : Bool :=
  matchYearDigits ((text.drop p).take 4)
  && (p == 0 || !pythonWordChar (text.getD (p - 1) ' '))
  && (p + 4 == text.length || !pythonWordChar (text.getD (p + 4) ' '))

/-- The tuple built for one match of `extract_years_with_fixed_context`.
Python slice clamping `max(0, start - W)` / `min(len, end + W)` is realized
by truncated `Nat` subtraction and `min`. -/
structure YearItem where
  year : Str
  snippet : Str
  before : Str
  after : Str
  position : Nat
  deriving DecidableEq

/-- The dictionary appended for a match at index `p` in
`extract_years_with_fixed_context`; `text[a:b]` is `(text.drop a).take (b - a)`. -/
def mkYearItem (text : Str) (W p : Nat) : YearItem :=
  let e := p + 4
  let cs := p - W
  let ce := min text.length (e + W)
  { year := (text.drop p).take 4,
    snippet := (text.drop cs).take (ce - cs),
    before := (text.drop cs).take (p - cs),
    after := (text.drop e).take (ce - e),
    position := p }

/-- `extract_years_with_fixed_context` of `citation-R01.py`: one tuple per
match of `\b(19\d{2}|20\d{2})\b`, in order of occurrence. -/
def extract_years_with_fixed_context (text : Str) (W : Nat) : List YearItem :=
  ((List.range text.length).filter (isYearTokenAt text)).map (mkYearItem text W)

/-- The deduplication loop of `main` in `citation-R01.py`: a `seen` set of
`(year, snippet)` keys; an item whose key was already seen is skipped,
otherwise it is kept and its key added. -/
def dedupLoop : List YearItem → Finset (Str × Str) → List YearItem
  | [], _ => []
  | x :: xs, seen =>
    if (x.year, x.snippet) ∈ seen then dedupLoop xs seen
    else x :: dedupLoop xs (insert (x.year, x.snippet) seen)

/-- The deduplicated Extractor output of `main` in `citation-R01.py`
(context width fixed to 30 there). -/
def dedup_extract (text : Str) : List YearItem :=
  dedupLoop (extract_years_with_fixed_context text 30) ∅

/-- The match record appended by `find_matches_by_full_pretext`. -/
structure MatchResult where
  bib : BibEntry
  evidence : List Str
  matched_keywords : Finset Str
  deriving DecidableEq

/-- One iteration of the inner snippet loop of
`find_matches_by_full_pretext`: skip a snippet not containing the year
(`if year not in snippet: continue`); otherwise intersect the snippet
keyword set (same tokenizer `kwSet`) with the entry keywords, and on a
non-empty intersection append the snippet as evidence and accumulate the
intersection into `matched_keywords_set`. -/
def snipStep (e : BibEntry) (acc : List Str × Finset Str) (sn : Str) : List Str × Finset Str :=
  if containsSub e.year sn then
    let common := e.keywords ∩ kwSet sn
    if common.card ≠ 0 then (acc.1 ++ [sn], acc.2 ∪ common) else acc
  else acc

/-- The inner snippet scan of `find_matches_by_full_pretext` for one entry:
the pair (`matched_snippets`, `matched_keywords_set`). -/
def scanSnippets (e : BibEntry) (snippets : List Str) : List Str × Finset Str :=
  snippets.foldl (snipStep e) ([], ∅)

/-- One iteration of the entry loop of `find_matches_by_full_pretext`:
`if matched_snippets: matches.append(...) else: not_found.append(entry)`. -/
def matchStep (snippets : List Str) (acc : List MatchResult × List BibEntry) (e : BibEntry) :
    List MatchResult × List BibEntry :=
  if (scanSnippets e snippets).1 = [] then (acc.1, acc.2 ++ [e])
  else (acc.1 ++ [⟨e, (scanSnippets e snippets).1, (scanSnippets e snippets).2⟩], acc.2)

/-- The entry loop of `find_matches_by_full_pretext`: an entry with at
least one evidence snippet goes to `matches`, the rest to `not_found`,
both in bibliography order. -/
def find_matches (snippets : List Str) (bib_entries : List BibEntry) :
    List MatchResult × List BibEntry :=
  bib_entries.foldl (matchStep snippets) ([], [])

/-- The snippet pre-filter of `find_matches_by_full_pretext`: keep the
lines of the extraction file containing both `[` and `]`, stripped. -/
def snippetLines (lines : List Str) : List Str :=
  (lines.filter (fun l => l.contains '[' && l.contains ']')).map pyStrip

/-- `snippetHit e sn` is the condition under which the inner loop of
`find_matches_by_full_pretext` records snippet `sn` as evidence for entry
`e`: the year occurs literally and the keyword intersection is non-empty. -/
def snippetHit (e : BibEntry) (sn : Str) : Bool :=
  containsSub e.year sn && decide ((e.keywords ∩ kwSet sn).card ≠ 0)

theorem snipStep_fst (e : BibEntry) :
    ∀ (sns : List Str) (acc : List Str × Finset Str),
      (List.foldl (snipStep e) acc sns).1 = acc.1 ++ sns.filter (snippetHit e) := by
  intro sns
  induction sns with
  | nil => intro acc; simp
  | cons sn sns ih =>
    intro acc
    rw [List.foldl_cons, ih]
    by_cases h1 : containsSub e.year sn
    · by_cases h2 : (e.keywords ∩ kwSet sn).card ≠ 0
      · simp [snipStep, snippetHit, h1, h2, List.filter_cons]
      · simp [snipStep, snippetHit, h1, h2, List.filter_cons]
    · simp [snipStep, snippetHit, h1, List.filter_cons]

theorem scanSnippets_fst (e : BibEntry) (sns : List Str) :
    (scanSnippets e sns).1 = sns.filter (snippetHit e) := by
  rw [scanSnippets, snipStep_fst]; rfl


theorem find_matches_spec (sns : List Str) :
    ∀ (entries : List BibEntry) (acc : List MatchResult × List BibEntry),
      (List.foldl (matchStep sns) acc entries).1
        = acc.1 ++ (entries.filter (fun e => !(sns.filter (snippetHit e)).isEmpty)).map
            (fun e => ⟨e, (scanSnippets e sns).1, (scanSnippets e sns).2⟩)
      ∧ (List.foldl (matchStep sns) acc entries).2
        = acc.2 ++ entries.filter (fun e => (sns.filter (snippetHit e)).isEmpty) := by
  intro entries
  induction entries with
  | nil => intro acc; simp
  | cons e entries ih =>
    intro acc
    rw [List.foldl_cons]
    obtain ⟨ih1, ih2⟩ := ih (matchStep sns acc e)
    rw [ih1, ih2]
    by_cases h : (sns.filter (snippetHit e)).isEmpty = true
    · have hscan : (scanSnippets e sns).1 = [] := by
        rw [scanSnippets_fst]; exact List.isEmpty_iff.mp h
      rw [matchStep, if_pos hscan]
      simp only [List.filter_cons, h, Bool.not_true]
      constructor
      · simp
      · simp [List.append_assoc]
    · have hscan : (scanSnippets e sns).1 ≠ [] := by
        rw [scanSnippets_fst]
        intro hc
        exact h (by rw [hc]; rfl)
      rw [matchStep, if_neg hscan]
      have hb : (sns.filter (snippetHit e)).isEmpty = false := by
        cases hb : (sns.filter (snippetHit e)).isEmpty
        · rfl
        · exact absurd hb h
      simp only [List.filter_cons, hb, Bool.not_false]
      constructor
      · simp [scanSnippets_fst, List.append_assoc]
      · simp

theorem mem_matches_iff (sns : List Str) (entries : List BibEntry) (e : BibEntry) :
    (∃ m ∈ (find_matches sns entries).1, m.bib = e) ↔
      e ∈ entries ∧ ∃ sn ∈ sns, snippetHit e sn = true := by
  rw [find_matches, (find_matches_spec sns entries ([], [])).1]
  simp only [List.nil_append, List.mem_map, List.mem_filter]
  constructor
  · rintro ⟨m, ⟨e2, ⟨hmem, hne⟩, rfl⟩, hbib⟩
    have he2 : e2 = e := hbib
    subst he2
    refine ⟨hmem, ?_⟩
    have hnil : sns.filter (snippetHit e2) ≠ [] := by
      intro hc
      rw [hc] at hne
      simp at hne
    obtain ⟨sn, hsn⟩ := List.exists_mem_of_ne_nil _ hnil
    obtain ⟨h1, h2⟩ := List.mem_filter.mp hsn
    exact ⟨sn, h1, h2⟩
  · rintro ⟨hmem, sn, hsn, hhit⟩
    have hne : (sns.filter (snippetHit e)).isEmpty = false := by
      have hm : sn ∈ sns.filter (snippetHit e) := List.mem_filter.mpr ⟨hsn, hhit⟩
      cases hemp : (sns.filter (snippetHit e)).isEmpty
      · rfl
      · rw [List.isEmpty_iff.mp hemp] at hm
        cases hm
    exact ⟨⟨e, (scanSnippets e sns).1, (scanSnippets e sns).2⟩,
           ⟨e, ⟨hmem, by rw [hne]; rfl⟩, rfl⟩, rfl⟩

theorem mem_not_found_iff (sns : List Str) (entries : List BibEntry) (e : BibEntry) :
    e ∈ (find_matches sns entries).2 ↔
      e ∈ entries ∧ ∀ sn ∈ sns, snippetHit e sn = false := by
  rw [find_matches, (find_matches_spec sns entries ([], [])).2]
  rw [List.nil_append, List.mem_filter]
  constructor
  · rintro ⟨hmem, hemp⟩
    refine ⟨hmem, fun sn hsn => ?_⟩
    have hf := List.filter_eq_nil_iff.mp (List.isEmpty_iff.mp hemp) sn hsn
    exact Bool.eq_false_iff.mpr hf
  · rintro ⟨hmem, hall⟩
    refine ⟨hmem, List.isEmpty_iff.mpr (List.filter_eq_nil_iff.mpr ?_)⟩
    intro sn hsn
    exact Bool.eq_false_iff.mp (hall sn hsn)

theorem snippetHit_iff (e : BibEntry) (sn : Str) :
    snippetHit e sn = true ↔
      (∃ l r, sn = l ++ e.year ++ r) ∧ (e.keywords ∩ kwSet sn).Nonempty := by
  rw [snippetHit, Bool.and_eq_true, containsSub_iff, decide_eq_true_eq]
  have hcard : (e.keywords ∩ kwSet sn).card ≠ 0 ↔ (e.keywords ∩ kwSet sn).Nonempty := by
    rw [Ne, Finset.card_eq_zero]
    exact Finset.nonempty_iff_ne_empty.symm
  rw [hcard]

/-- C1: for every BibEntry list and snippet list, the Matcher places an
entry in `matches` exactly when some snippet contains the entry's `year`
as a literal substring and the snippet's keyword set (computed with the
same tokenizer `kwSet` as the Segmenter) intersects the entry's keyword
set; an entry with no such snippet lands in `not_found`, so a year
co-occurrence without a shared keyword never produces a match. -/
theorem matcher_places_entry_iff_year_and_shared_keyword
    (entries : List BibEntry) (snippets : List Str) (e : BibEntry) :
    ((∃ m ∈ (find_matches snippets entries).1, m.bib = e) ↔
      (e ∈ entries ∧ ∃ sn ∈ snippets,
        (∃ l r, sn = l ++ e.year ++ r) ∧ (e.keywords ∩ kwSet sn).Nonempty)) ∧
    (e ∈ (find_matches snippets entries).2 ↔
      (e ∈ entries ∧ ¬ ∃ sn ∈ snippets,
        (∃ l r, sn = l ++ e.year ++ r) ∧ (e.keywords ∩ kwSet sn).Nonempty)) := by
  constructor
  · rw [mem_matches_iff]
    constructor
    · rintro ⟨hmem, sn, hsn, hhit⟩
      exact ⟨hmem, sn, hsn, (snippetHit_iff e sn).mp hhit⟩
    · rintro ⟨hmem, sn, hsn, hp⟩
      exact ⟨hmem, sn, hsn, (snippetHit_iff e sn).mpr hp⟩
  · rw [mem_not_found_iff]
    constructor
    · rintro ⟨hmem, hall⟩
      refine ⟨hmem, ?_⟩
      rintro ⟨sn, hsn, hp⟩
      have := hall sn hsn
      rw [Bool.eq_false_iff] at this
      exact this ((snippetHit_iff e sn).mpr hp)
    · rintro ⟨hmem, hno⟩
      refine ⟨hmem, fun sn hsn => ?_⟩
      rw [Bool.eq_false_iff]
      intro hhit
      exact hno ⟨sn, hsn, (snippetHit_iff e sn).mp hhit⟩

theorem process_entry_eq (s : Str) (e : BibEntry) (h : process_entry s = some e) :
    ∃ p q, searchYearParen s = some p ∧
      findSub ((s.drop p).take 1 ++ (s.drop (p + 1)).take 4) s = some q ∧
      e = ⟨s, (s.drop (p + 1)).take 4, stripPunctEnd (pyStrip (s.take q)),
           entryKeywords (stripPunctEnd (pyStrip (s.take q)))⟩ := by
  rw [process_entry] at h
  cases hs : searchYearParen s with
  | none => rw [hs] at h; cases h
  | some p =>
    rw [hs] at h
    dsimp only at h
    cases hf : findSub ((s.drop p).take 1 ++ (s.drop (p + 1)).take 4) s with
    | none => rw [hf] at h; cases h
    | some q =>
      rw [hf] at h
      dsimp only at h
      exact ⟨p, q, rfl, hf, (Option.some_inj.mp h).symm⟩

theorem process_entry_keywords (s : Str) (e : BibEntry) (h : process_entry s = some e) :
    e.keywords = entryKeywords e.pre_full_text := by
  obtain ⟨p, q, -, -, rfl⟩ := process_entry_eq s e h
  rfl

/-- Concrete entry used by witnesses: the segmentation of `ab（2024）`. -/
def sampleEntryAB : BibEntry :=
  ⟨"ab（2024）".toList, "2024".toList, "ab".toList, {"ab".toList}⟩

/-- Concrete entry with empty keyword set: the segmentation of `（2024）x`
(the year opens the line, so `pre_full_text` is empty). -/
def sampleEntryNoKw : BibEntry :=
  ⟨"（2024）x".toList, "2024".toList, [], ∅⟩

/-- C4: the Matcher is monotone in the snippet list: appending snippets
keeps every matched entry matched, and an entry not found against the
enlarged snippet list was already not found against the original one, so
enlarging the candidate set moves entries only from `not_found` to
`matches`. -/
theorem matcher_monotone_in_snippets
    (entries : List BibEntry) (s t : List Str) (e : BibEntry) :
    ((∃ m ∈ (find_matches s entries).1, m.bib = e) →
       ∃ m ∈ (find_matches (s ++ t) entries).1, m.bib = e) ∧
    (e ∈ (find_matches (s ++ t) entries).2 → e ∈ (find_matches s entries).2) := by
  constructor
  · rw [mem_matches_iff, mem_matches_iff]
    rintro ⟨hmem, sn, hsn, hhit⟩
    exact ⟨hmem, sn, List.mem_append_left _ hsn, hhit⟩
  · rw [mem_not_found_iff, mem_not_found_iff]
    rintro ⟨hmem, hall⟩
    exact ⟨hmem, fun sn hsn => hall sn (List.mem_append_left _ hsn)⟩

theorem matcher_monotone_in_snippets_witness :
    (∃ m ∈ (find_matches ("ab 2024".toList :: "qq".toList :: [])
        [sampleEntryAB, sampleEntryNoKw]).1, m.bib = sampleEntryAB) ∧
    sampleEntryNoKw ∈ (find_matches ["ab 2024".toList] [sampleEntryAB, sampleEntryNoKw]).2 :=
  ⟨(matcher_monotone_in_snippets [sampleEntryAB, sampleEntryNoKw]
      ["ab 2024".toList] ["qq".toList] sampleEntryAB).1
      ⟨⟨sampleEntryAB, (scanSnippets sampleEntryAB ["ab 2024".toList]).1,
        (scanSnippets sampleEntryAB ["ab 2024".toList]).2⟩, List.Mem.head _, rfl⟩,
   (matcher_monotone_in_snippets [sampleEntryAB, sampleEntryNoKw]
      ["ab 2024".toList] ["qq".toList] sampleEntryNoKw).2 (List.Mem.head _)⟩

/-- C7: an entry whose keyword set is empty is retained by the Matcher and
always lands in `not_found`, never in `matches`, regardless of the snippet
contents; and an entry produced by `process_entry` with empty
`pre_full_text` has an empty keyword set. -/
theorem empty_keyword_entry_always_not_found
    (entries : List BibEntry) (snippets : List Str) (e : BibEntry) :
    (e ∈ entries → e.keywords = ∅ →
      (e ∈ (find_matches snippets entries).2 ∧
        ¬ ∃ m ∈ (find_matches snippets entries).1, m.bib = e)) ∧
    (∀ s e2, process_entry s = some e2 → e2.pre_full_text = [] → e2.keywords = ∅) := by
  constructor
  · intro hmem hkw
    have hhit : ∀ sn ∈ snippets, snippetHit e sn = false := by
      intro sn hsn
      rw [snippetHit, hkw]
      simp
    constructor
    · exact (mem_not_found_iff snippets entries e).mpr ⟨hmem, hhit⟩
    · intro hc
      obtain ⟨-, sn, hsn, hbad⟩ := (mem_matches_iff snippets entries e).mp hc
      rw [hhit sn hsn] at hbad
      cases hbad
  · intro s e2 h hpre
    rw [process_entry_keywords s e2 h, hpre]
    rfl

theorem empty_keyword_entry_always_not_found_witness :
    (sampleEntryNoKw ∈ (find_matches ["x 2024 ab".toList] [sampleEntryAB, sampleEntryNoKw]).2 ∧
      ¬ ∃ m ∈ (find_matches ["x 2024 ab".toList] [sampleEntryAB, sampleEntryNoKw]).1,
          m.bib = sampleEntryNoKw) ∧
    sampleEntryNoKw.keywords = ∅ :=
  ⟨(empty_keyword_entry_always_not_found [sampleEntryAB, sampleEntryNoKw]
      ["x 2024 ab".toList] sampleEntryNoKw).1 (List.Mem.tail _ (List.Mem.head _)) rfl,
   (empty_keyword_entry_always_not_found [sampleEntryAB, sampleEntryNoKw]
      ["x 2024 ab".toList] sampleEntryNoKw).2 "（2024）x".toList sampleEntryNoKw rfl rfl⟩

/-- C9: segmenting the single bibliography line `王新衡（2024）。測試研究。`
produces exactly one entry, with year `2024`, preText `王新衡` and keyword
set `{王新衡}`. -/
theorem segment_example_single_line :
    extract_bib_entries ["王新衡（2024）。測試研究。".toList] =
      [⟨"王新衡（2024）。測試研究。".toList, "2024".toList,
        "王新衡".toList, {"王新衡".toList}⟩] := rfl

/-- The `preText` rule as the specification words it: the substring of the
entry before the opening bracket of the first parenthesized-year match,
stripped, with one trailing punctuation character removed. -/
def specPreText (s : Str) : Option Str :=
  (searchYearParen s).map (fun p => stripPunctEnd (pyStrip (s.take p)))

/-- C2 counterexample: on the entry `A（2024 B（2024）` the first
parenthesized-year match starts at index 8, so the spec's `preText` is
`A（2024 B`, but `process_entry` locates the bracket with
`entry_line.find(left_bracket + year)`, which hits the earlier unclosed
`（2024` at index 1 and yields `preText = "A"`. -/
theorem pretext_before_match_counterexample :
    (process_entry "A（2024 B（2024）".toList).map BibEntry.pre_full_text = some "A".toList ∧
    specPreText "A（2024 B（2024）".toList = some "A（2024 B".toList ∧
    ("A".toList : Str) ≠ "A（2024 B".toList :=
  ⟨rfl, rfl, by decide⟩

/-- C2 amended: `preText` is the stripped, punctuation-cleaned substring of
the entry before the FIRST OCCURRENCE of (opening bracket of the first
parenthesized-year match, followed by the year digits) — which coincides
with the substring before that match's own bracket except when the same
bracket-plus-year characters occur earlier without a closing bracket. -/
theorem pretext_uses_first_bracket_year_occurrence (s : Str) (e : BibEntry)
    (h : process_entry s = some e) :
    ∃ p q, searchYearParen s = some p ∧ q ≤ p ∧
      listPrefixOf ((s.drop p).take 1 ++ (s.drop (p + 1)).take 4) (s.drop q) = true ∧
      (∀ r, r < q →
        listPrefixOf ((s.drop p).take 1 ++ (s.drop (p + 1)).take 4) (s.drop r) = false) ∧
      e.pre_full_text = stripPunctEnd (pyStrip (s.take q)) := by
  obtain ⟨p, q, hp, hq, rfl⟩ := process_entry_eq s e h
  obtain ⟨-, -, hpref, hleast⟩ := searchFromAux_some _ _ _ _ hq
  have hdd : (s.drop p).drop 1 = s.drop (p + 1) := by
    rw [List.drop_drop, Nat.add_comm]
  have hat_p : listPrefixOf ((s.drop p).take 1 ++ (s.drop (p + 1)).take 4) (s.drop p) = true := by
    rw [listPrefixOf_iff]
    refine ⟨((s.drop p).drop 1).drop 4, ?_⟩
    rw [← hdd, List.append_assoc, List.take_append_drop, List.take_append_drop]
  have hqp : q ≤ p := by
    by_contra hgt
    rw [hleast p (Nat.zero_le _) (Nat.lt_of_not_le hgt)] at hat_p
    cases hat_p
  exact ⟨p, q, hp, hqp, hpref, fun r hr => hleast r (Nat.zero_le _) hr, rfl⟩

theorem pretext_uses_first_bracket_year_occurrence_witness :
    ∃ p q, searchYearParen "ab（2024）".toList = some p ∧ q ≤ p ∧
      listPrefixOf (("ab（2024）".toList.drop p).take 1 ++
        ("ab（2024）".toList.drop (p + 1)).take 4) ("ab（2024）".toList.drop q) = true ∧
      (∀ r, r < q →
        listPrefixOf (("ab（2024）".toList.drop p).take 1 ++
          ("ab（2024）".toList.drop (p + 1)).take 4) ("ab（2024）".toList.drop r) = false) ∧
      sampleEntryAB.pre_full_text = stripPunctEnd (pyStrip ("ab（2024）".toList.take q)) :=
  pretext_uses_first_bracket_year_occurrence "ab（2024）".toList sampleEntryAB rfl

theorem isYearParenAt_elim {s : Str} {p : Nat} (h : isYearParenAt s p = true) :
    ∃ b d1 d2 d3 d4 c t, s.drop p = b :: d1 :: d2 :: d3 :: d4 :: c :: t ∧
      isOpenParen b = true ∧ pyDigit d1 = true ∧ pyDigit d2 = true ∧
      pyDigit d3 = true ∧ pyDigit d4 = true ∧ isCloseParen c = true := by
  rw [isYearParenAt] at h
  rcases hd : s.drop p with _ | ⟨b, _ | ⟨d1, _ | ⟨d2, _ | ⟨d3, _ | ⟨d4, _ | ⟨c, t⟩⟩⟩⟩⟩⟩ <;>
    rw [hd] at h <;> simp only [Bool.and_eq_true] at h
  · cases h
  · cases h
  · cases h
  · cases h
  · cases h
  · cases h
  · exact ⟨b, d1, d2, d3, d4, c, t, rfl, h.1.1.1.1.1, h.1.1.1.1.2, h.1.1.1.2, h.1.1.2, h.1.2, h.2⟩

theorem mem_foldl_bibStep (e : BibEntry) :
    ∀ (lines : List Str) (st : Str × List BibEntry),
      e ∈ (List.foldl bibStep st lines).2 →
      e ∈ st.2 ∨ ∃ s, process_entry s = some e := by
  intro lines
  induction lines with
  | nil => intro st h; exact Or.inl h
  | cons l ls ih =>
    intro st h
    rw [List.foldl_cons] at h
    rcases ih (bibStep st l) h with hmem | hex
    · rw [bibStep] at hmem
      by_cases h1 : pyStrip l ≠ [] ∧ hasYearParen (pyStrip l) = true
      · rw [if_pos h1] at hmem
        by_cases h2 : st.1 ≠ []
        · rw [if_pos h2] at hmem
          rcases List.mem_append.mp hmem with hin | hopt
          · exact Or.inl hin
          · rcases Option.mem_toList.mp hopt with hsome
            exact Or.inr ⟨st.1, hsome⟩
        · rw [if_neg h2] at hmem
          exact Or.inl hmem
      · rw [if_neg h1] at hmem
        by_cases h3 : st.1 ≠ [] ∧ pyStrip l ≠ []
        · rw [if_pos h3] at hmem
          exact Or.inl hmem
        · rw [if_neg h3] at hmem
          exact Or.inl hmem
    · exact Or.inr hex

theorem bib_entries_from_process (lines : List Str) (e : BibEntry)
    (h : e ∈ extract_bib_entries lines) : ∃ s, process_entry s = some e := by
  rw [extract_bib_entries] at h
  by_cases hfin : (List.foldl bibStep ([], []) lines).1 ≠ []
  · rw [if_pos hfin] at h
    rcases List.mem_append.mp h with hin | hopt
    · rcases mem_foldl_bibStep e lines ([], []) hin with habs | hex
      · cases habs
      · exact hex
    · exact ⟨(List.foldl bibStep ([], []) lines).1, Option.mem_toList.mp hopt⟩
  · rw [if_neg hfin] at h
    rcases mem_foldl_bibStep e lines ([], []) h with habs | hex
    · cases habs
    · exact hex

theorem process_entry_year (s : Str) (e : BibEntry) (h : process_entry s = some e) :
    e.year.length = 4 ∧ ∀ c ∈ e.year, pyDigit c = true := by
  obtain ⟨p, q, hp, -, rfl⟩ := process_entry_eq s e h
  rw [searchYearParen] at hp
  obtain ⟨-, -, hat, -⟩ := searchFromAux_some _ _ _ _ hp
  obtain ⟨b, d1, d2, d3, d4, c, t, hsplit, -, h1, h2, h3, h4, -⟩ := isYearParenAt_elim hat
  have hdd : s.drop (p + 1) = (s.drop p).drop 1 := by
    rw [List.drop_drop, Nat.add_comm]
  dsimp only
  rw [hdd, hsplit]
  refine ⟨rfl, fun x hx => ?_⟩
  simp only [List.drop_succ_cons, List.drop_zero, List.take_succ_cons, List.take_zero,
    List.mem_cons, List.not_mem_nil, or_false] at hx
  rcases hx with rfl | rfl | rfl | rfl
  · exact h1
  · exact h2
  · exact h3
  · exact h4

theorem entryKeywords_eq_empty {pre : Str} (h : entryKeywords pre = ∅) :
    pre.filter pythonWordChar = [] := by
  rw [entryKeywords] at h
  dsimp only at h
  by_cases hc : (kwSet pre).card = 0 ∧ pre ≠ []
  · rw [if_pos hc] at h
    by_cases hfb : ((pre.filter pythonWordChar).take 10).map Char.toLower = []
    · have h10 := List.map_eq_nil_iff.mp hfb
      rcases List.take_eq_nil_iff.mp h10 with h0 | hnil
      · exact absurd h0 (by decide)
      · exact hnil
    · rw [if_neg hfb] at h
      exact absurd h (Finset.singleton_ne_empty _)
  · rw [if_neg hc] at h
    have hcard : (kwSet pre).card = 0 := by rw [h]; rfl
    have hpre : pre = [] := by
      by_contra hne
      exact hc ⟨hcard, hne⟩
    rw [hpre]
    rfl

/-- C3 counterexample: the bibliography line `-（2024）` yields an entry
whose `pre_full_text` is the non-empty string `-` while its keyword set is
empty — the fallback token (word characters of `-`, truncated, lowercased)
is empty, so the claimed invariant "keywords empty only if preText empty"
fails. -/
theorem segmenter_invariant_counterexample :
    extract_bib_entries ["-（2024）".toList] =
      [⟨"-（2024）".toList, "2024".toList, "-".toList, ∅⟩] ∧
    ("-".toList : Str) ≠ [] :=
  ⟨rfl, by decide⟩

/-- C3 amended: every entry the Segmenter produces has a year that is a
4-character string of digits, and its keyword set is empty only if
`pre_full_text` contains no word characters at all (rather than only if
`pre_full_text` is empty: a non-empty preText made solely of non-word
characters also yields an empty keyword set, because the fallback token is
then empty). -/
theorem segmenter_invariant_amended (lines : List Str) (e : BibEntry)
    (h : e ∈ extract_bib_entries lines) :
    (e.year.length = 4 ∧ ∀ c ∈ e.year, pyDigit c = true) ∧
    (e.keywords = ∅ → e.pre_full_text.filter pythonWordChar = []) := by
  obtain ⟨s, hs⟩ := bib_entries_from_process lines e h
  refine ⟨process_entry_year s e hs, fun hkw => ?_⟩
  rw [process_entry_keywords s e hs] at hkw
  exact entryKeywords_eq_empty hkw

theorem segmenter_invariant_amended_witness :
    (sampleEntryAB.year.length = 4 ∧ ∀ c ∈ sampleEntryAB.year, pyDigit c = true) ∧
    (sampleEntryAB.keywords = ∅ → sampleEntryAB.pre_full_text.filter pythonWordChar = []) :=
  segmenter_invariant_amended ["ab（2024）".toList] sampleEntryAB (List.Mem.head _)

theorem bracketYear_occurs_at_match (s : Str) (p : Nat) :
    listPrefixOf ((s.drop p).take 1 ++ (s.drop (p + 1)).take 4) (s.drop p) = true := by
  rw [listPrefixOf_iff]
  have hdd : (s.drop p).drop 1 = s.drop (p + 1) := by
    rw [List.drop_drop, Nat.add_comm]
  refine ⟨((s.drop p).drop 1).drop 4, ?_⟩
  rw [← hdd, List.append_assoc, List.take_append_drop, List.take_append_drop]

theorem isYearParenAt_append {s : Str} (t : Str) {p : Nat} (h : isYearParenAt s p = true) :
    isYearParenAt (s ++ t) p = true := by
  obtain ⟨b, d1, d2, d3, d4, c, r, hsplit, h1, h2, h3, h4, h5, h6⟩ := isYearParenAt_elim h
  have hlt : p < s.length := by
    by_contra hge
    have hnil : s.drop p = [] := List.drop_eq_nil_of_le (Nat.le_of_not_lt hge)
    rw [hnil] at hsplit
    cases hsplit
  have hsub : p - s.length = 0 := by omega
  rw [isYearParenAt, List.drop_append_eq_append_drop, hsplit, hsub, List.drop_zero]
  simp [List.cons_append, h1, h2, h3, h4, h5, h6]

theorem hasYearParen_append_left (s t : Str) (h : hasYearParen s = true) :
    hasYearParen (s ++ t) = true := by
  rw [hasYearParen, Option.isSome_iff_exists] at h
  obtain ⟨p, hp⟩ := h
  rw [searchYearParen] at hp
  obtain ⟨-, hlt, hat, -⟩ := searchFromAux_some _ _ _ _ hp
  rw [hasYearParen, searchYearParen]
  apply searchFromAux_isSome _ _ _ p (Nat.zero_le _)
  · have : s.length ≤ (s ++ t).length := by simp
    omega
  · exact isYearParenAt_append t hat

theorem process_entry_total (s : Str) (hy : hasYearParen s = true) :
    ∃ e, process_entry s = some e ∧ e.original_line = s := by
  rw [hasYearParen, Option.isSome_iff_exists] at hy
  obtain ⟨p, hp⟩ := hy
  have hlt : p < s.length := by
    rw [searchYearParen] at hp
    have := searchFromAux_some _ _ _ _ hp
    omega
  have hfind : (findSub ((s.drop p).take 1 ++ (s.drop (p + 1)).take 4) s).isSome := by
    rw [findSub]
    exact searchFromAux_isSome _ _ _ p (Nat.zero_le _) (by omega)
      (bracketYear_occurs_at_match s p)
  rw [Option.isSome_iff_exists] at hfind
  obtain ⟨q, hq⟩ := hfind
  refine ⟨⟨s, (s.drop (p + 1)).take 4, stripPunctEnd (pyStrip (s.take q)),
    entryKeywords (stripPunctEnd (pyStrip (s.take q)))⟩, ?_, rfl⟩
  rw [process_entry, hp]
  dsimp only
  rw [hq]

/-- C8: while an entry is being accumulated, a blank line changes nothing
and a non-blank line without a parenthesized year is appended to the
current accumulation joined by a single space; the accumulation is
finalized exactly when the next year-bearing non-blank line is seen (the
pending accumulation is processed into the entry list and the new
accumulation starts from the stripped line) or when input ends — so two
consecutive lines of which only the first bears a year become one entry's
`original_line`, while two consecutive year-bearing lines become two
entries. -/
theorem segmenter_line_accumulation :
    (∀ (st : Str × List BibEntry) (line : Str), pyStrip line = [] → bibStep st line = st) ∧
    (∀ (cur : Str) (ents : List BibEntry) (line : Str), cur ≠ [] → pyStrip line ≠ [] →
       hasYearParen (pyStrip line) = false →
       bibStep (cur, ents) line = (cur ++ ' ' :: pyStrip line, ents)) ∧
    (∀ (cur : Str) (ents : List BibEntry) (line : Str), cur ≠ [] → pyStrip line ≠ [] →
       hasYearParen (pyStrip line) = true →
       bibStep (cur, ents) line = (pyStrip line, ents ++ (process_entry cur).toList)) ∧
    (∀ l1 l2 : Str, pyStrip l1 ≠ [] → hasYearParen (pyStrip l1) = true →
       pyStrip l2 ≠ [] → hasYearParen (pyStrip l2) = false →
       ∃ e, extract_bib_entries [l1, l2] = [e] ∧
         e.original_line = pyStrip l1 ++ ' ' :: pyStrip l2) ∧
    (∀ l1 l2 : Str, pyStrip l1 ≠ [] → hasYearParen (pyStrip l1) = true →
       pyStrip l2 ≠ [] → hasYearParen (pyStrip l2) = true →
       ∃ e1 e2, extract_bib_entries [l1, l2] = [e1, e2] ∧
         e1.original_line = pyStrip l1 ∧ e2.original_line = pyStrip l2) := by
  refine ⟨?_, ?_, ?_, ?_, ?_⟩
  · intro st line hnil
    rw [bibStep]
    rw [if_neg (by simp [hnil]), if_neg (by simp [hnil])]
  · intro cur ents line hcur hline hy
    rw [bibStep]
    rw [if_neg (by simp [hy]), if_pos ⟨hcur, hline⟩]
  · intro cur ents line hcur hline hy
    rw [bibStep]
    rw [if_pos ⟨hline, hy⟩, if_pos hcur]
  · intro l1 l2 h1 hy1 h2 hy2
    obtain ⟨e, he, horig⟩ := process_entry_total (pyStrip l1 ++ ' ' :: pyStrip l2)
      (hasYearParen_append_left (pyStrip l1) (' ' :: pyStrip l2) hy1)
    refine ⟨e, ?_, horig⟩
    have hb1 : bibStep ([], []) l1 = (pyStrip l1, []) := by
      rw [bibStep]
      rw [if_pos ⟨h1, hy1⟩]
      simp
    have hb2 : bibStep (pyStrip l1, []) l2 = (pyStrip l1 ++ ' ' :: pyStrip l2, []) := by
      rw [bibStep]
      rw [if_neg (by simp [hy2]), if_pos ⟨h1, h2⟩]
    rw [extract_bib_entries, List.foldl_cons, List.foldl_cons, List.foldl_nil, hb1, hb2]
    rw [if_pos (by simp), he]
    rfl
  · intro l1 l2 h1 hy1 h2 hy2
    obtain ⟨e1, he1, ho1⟩ := process_entry_total (pyStrip l1) hy1
    obtain ⟨e2, he2, ho2⟩ := process_entry_total (pyStrip l2) hy2
    refine ⟨e1, e2, ?_, ho1, ho2⟩
    have hb1 : bibStep ([], []) l1 = (pyStrip l1, []) := by
      rw [bibStep]
      rw [if_pos ⟨h1, hy1⟩]
      simp
    have hb2 : bibStep (pyStrip l1, []) l2 = (pyStrip l2, [e1]) := by
      rw [bibStep]
      rw [if_pos ⟨h2, hy2⟩, if_pos h1]
      dsimp only
      rw [he1]
      rfl
    rw [extract_bib_entries, List.foldl_cons, List.foldl_cons, List.foldl_nil, hb1, hb2]
    rw [if_pos h2]
    dsimp only
    rw [he2]
    rfl

theorem segmenter_line_accumulation_witness :
    bibStep ("a".toList, ([] : List BibEntry)) " ".toList = ("a".toList, []) ∧
    bibStep ("ab（2024）".toList, ([] : List BibEntry)) " more".toList
      = ("ab（2024）".toList ++ ' ' :: "more".toList, []) ∧
    bibStep ("ab（2024）".toList, ([] : List BibEntry)) " cd（2020）".toList
      = ("cd（2020）".toList, [sampleEntryAB]) ∧
    (∃ e, extract_bib_entries ["ab（2024）".toList, " more".toList] = [e] ∧
      e.original_line = "ab（2024）".toList ++ ' ' :: "more".toList) ∧
    ∃ e1 e2, extract_bib_entries ["ab（2024）".toList, "cd（2020）".toList] = [e1, e2] ∧
      e1.original_line = "ab（2024）".toList ∧ e2.original_line = "cd（2020）".toList :=
  ⟨segmenter_line_accumulation.1 ("a".toList, []) " ".toList rfl,
   segmenter_line_accumulation.2.1 "ab（2024）".toList [] " more".toList
     (by decide) (by decide) rfl,
   segmenter_line_accumulation.2.2.1 "ab（2024）".toList [] " cd（2020）".toList
     (by decide) (by decide) rfl,
   segmenter_line_accumulation.2.2.2.1 "ab（2024）".toList " more".toList
     (by decide) rfl (by decide) rfl,
   segmenter_line_accumulation.2.2.2.2 "ab（2024）".toList "cd（2020）".toList
     (by decide) rfl (by decide) rfl⟩

theorem matchYearDigits_elim {l : Str} (h : matchYearDigits l = true) :
    ∃ a b c d, l = [a, b, c, d] ∧
      ((a = '1' ∧ b = '9') ∨ (a = '2' ∧ b = '0')) ∧ pyDigit c = true ∧ pyDigit d = true := by
  rcases l with _ | ⟨a, _ | ⟨b, _ | ⟨c, _ | ⟨d, _ | ⟨e, t⟩⟩⟩⟩⟩ <;>
    simp only [matchYearDigits, Bool.and_eq_true, Bool.or_eq_true, beq_iff_eq] at h
  all_goals try exact Bool.noConfusion h
  exact ⟨a, b, c, d, rfl, h.1.1, h.1.2, h.2⟩

theorem isYearTokenAt_elim {text : Str} {p : Nat} (h : isYearTokenAt text p = true) :
    matchYearDigits ((text.drop p).take 4) = true ∧
    (p = 0 ∨ pythonWordChar (text.getD (p - 1) ' ') = false) ∧
    (p + 4 = text.length ∨ pythonWordChar (text.getD (p + 4) ' ') = false) := by
  rw [isYearTokenAt] at h
  simp only [Bool.and_eq_true, Bool.or_eq_true, beq_iff_eq, Bool.not_eq_true'] at h
  exact ⟨h.1.1, h.1.2, h.2⟩

theorem isYearTokenAt_bound {text : Str} {p : Nat} (h : isYearTokenAt text p = true) :
    p + 4 ≤ text.length := by
  obtain ⟨hy, -, -⟩ := isYearTokenAt_elim h
  obtain ⟨a, b, c, d, hl, -⟩ := matchYearDigits_elim hy
  have h4 : ((text.drop p).take 4).length = 4 := by rw [hl]; rfl
  rw [List.length_take, List.length_drop] at h4
  omega

theorem mem_extract_years (text : Str) (W : Nat) (it : YearItem) :
    it ∈ extract_years_with_fixed_context text W ↔
      ∃ p, p < text.length ∧ isYearTokenAt text p = true ∧ it = mkYearItem text W p := by
  rw [extract_years_with_fixed_context, List.mem_map]
  constructor
  · rintro ⟨p, hp, rfl⟩
    obtain ⟨hr, ht⟩ := List.mem_filter.mp hp
    exact ⟨p, List.mem_range.mp hr, ht, rfl⟩
  · rintro ⟨p, hlt, ht, rfl⟩
    exact ⟨p, List.mem_filter.mpr ⟨List.mem_range.mpr hlt, ht⟩, rfl⟩

theorem slice_split (l : Str) (a b c : Nat) (h1 : a ≤ b) (h2 : b ≤ c) :
    (l.drop a).take (c - a) = (l.drop a).take (b - a) ++ (l.drop b).take (c - b) := by
  have hsum : c - a = (b - a) + (c - b) := by omega
  rw [hsum, List.take_add]
  congr 2
  rw [List.drop_drop]
  congr 1
  omega

/-- C10: every tuple the Extractor emits is internally coherent: the full
window equals `before ++ year ++ after`, and the source text at index
`position` begins with the 4-character `year`. -/
theorem extractor_tuple_coherent (text : Str) (W : Nat) (it : YearItem)
    (h : it ∈ extract_years_with_fixed_context text W) :
    it.snippet = it.before ++ it.year ++ it.after ∧
    (text.drop it.position).take 4 = it.year := by
  obtain ⟨p, hlt, hat, rfl⟩ := (mem_extract_years text W it).mp h
  have hbound : p + 4 ≤ text.length := isYearTokenAt_bound hat
  constructor
  · show (text.drop (p - W)).take (min text.length (p + 4 + W) - (p - W)) = _
    rw [slice_split text (p - W) p (min text.length (p + 4 + W)) (by omega) (by omega),
      slice_split text p (p + 4) (min text.length (p + 4 + W)) (by omega) (by omega)]
    have h4 : p + 4 - p = 4 := by omega
    rw [h4, List.append_assoc]
    rfl
  · rfl

theorem extractor_tuple_coherent_witness :
    (mkYearItem "a 2024 b".toList 3 2).snippet
        = (mkYearItem "a 2024 b".toList 3 2).before
          ++ (mkYearItem "a 2024 b".toList 3 2).year
          ++ (mkYearItem "a 2024 b".toList 3 2).after ∧
    ("a 2024 b".toList.drop (mkYearItem "a 2024 b".toList 3 2).position).take 4
        = (mkYearItem "a 2024 b".toList 3 2).year :=
  extractor_tuple_coherent "a 2024 b".toList 3 (mkYearItem "a 2024 b".toList 3 2)
    (List.Mem.head _)

/-- C6: every tuple the Extractor emits comes from a word-boundary-delimited
4-digit token beginning `19` or `20`; `before` and `after` are substrings of
the source text of length at most `W`, of length exactly `min` of `W` and
the available characters, hence shorter than `W` only within `W` characters
of a text boundary; and a text with no matching token yields `[]`. -/
theorem extractor_tuple_spec (text : Str) (W : Nat) (it : YearItem) :
    (it ∈ extract_years_with_fixed_context text W →
      ∃ p, isYearTokenAt text p = true ∧ it = mkYearItem text W p ∧ it.position = p ∧
        it.year = (text.drop p).take 4 ∧
        (it.year.take 2 = ['1', '9'] ∨ it.year.take 2 = ['2', '0']) ∧
        (∀ c ∈ it.year, pyDigit c = true) ∧
        (p = 0 ∨ pythonWordChar (text.getD (p - 1) ' ') = false) ∧
        (p + 4 = text.length ∨ pythonWordChar (text.getD (p + 4) ' ') = false) ∧
        (∃ u v, text = u ++ it.before ++ v) ∧ (∃ u v, text = u ++ it.after ++ v) ∧
        it.before.length = min p W ∧ it.after.length = min (text.length - (p + 4)) W ∧
        it.before.length ≤ W ∧ it.after.length ≤ W ∧
        (it.before.length < W → p < W) ∧
        (it.after.length < W → text.length < p + 4 + W)) ∧
    ((∀ p, p < text.length → isYearTokenAt text p = false) →
      extract_years_with_fixed_context text W = []) := by
  constructor
  · intro h
    obtain ⟨p, hlt, hat, rfl⟩ := (mem_extract_years text W it).mp h
    have hbound := isYearTokenAt_bound hat
    obtain ⟨hy, hbnd1, hbnd2⟩ := isYearTokenAt_elim hat
    obtain ⟨a, b, c, d, hl, hab, hc, hd⟩ := matchYearDigits_elim hy
    have hbe : (mkYearItem text W p).before = (text.drop (p - W)).take (p - (p - W)) := rfl
    have haf : (mkYearItem text W p).after
        = (text.drop (p + 4)).take (min text.length (p + 4 + W) - (p + 4)) := rfl
    have hyr : (mkYearItem text W p).year = (text.drop p).take 4 := rfl
    have hlb : (mkYearItem text W p).before.length = min p W := by
      rw [hbe, List.length_take, List.length_drop]
      omega
    have hla : (mkYearItem text W p).after.length = min (text.length - (p + 4)) W := by
      rw [haf, List.length_take, List.length_drop]
      omega
    refine ⟨p, hat, rfl, rfl, hyr, ?_, ?_, hbnd1, hbnd2, ?_, ?_, hlb, hla, ?_, ?_, ?_, ?_⟩
    · rw [hyr, hl]
      rcases hab with ⟨rfl, rfl⟩ | ⟨rfl, rfl⟩
      · left; rfl
      · right; rfl
    · rw [hyr, hl]
      intro x hx
      simp only [List.mem_cons, List.not_mem_nil, or_false] at hx
      rcases hab with ⟨rfl, rfl⟩ | ⟨rfl, rfl⟩ <;> rcases hx with rfl | rfl | rfl | rfl <;>
        first | rfl | exact hc | exact hd
    · refine ⟨text.take (p - W), text.drop p, ?_⟩
      rw [hbe, List.append_assoc]
      have hdd : (text.drop (p - W)).drop (p - (p - W)) = text.drop p := by
        rw [List.drop_drop]
        congr 1
        omega
      rw [← hdd, List.take_append_drop, List.take_append_drop]
    · refine ⟨text.take (p + 4), text.drop (min text.length (p + 4 + W)), ?_⟩
      rw [haf, List.append_assoc]
      have hdd : (text.drop (p + 4)).drop (min text.length (p + 4 + W) - (p + 4))
          = text.drop (min text.length (p + 4 + W)) := by
        rw [List.drop_drop]
        congr 1
        omega
      rw [← hdd, List.take_append_drop, List.take_append_drop]
    · rw [hlb]
      omega
    · rw [hla]
      omega
    · rw [hlb]
      omega
    · rw [hla]
      omega
  · intro hall
    rw [extract_years_with_fixed_context]
    have hnil : (List.range text.length).filter (isYearTokenAt text) = [] :=
      List.filter_eq_nil_iff.mpr (fun p hp => by
        simp [hall p (List.mem_range.mp hp)])
    rw [hnil]
    rfl

theorem extractor_tuple_spec_witness :
    (∃ p, isYearTokenAt "a 2024 b".toList p = true ∧
       mkYearItem "a 2024 b".toList 3 2 = mkYearItem "a 2024 b".toList 3 p ∧
       (mkYearItem "a 2024 b".toList 3 2).position = p ∧
       (mkYearItem "a 2024 b".toList 3 2).year = ("a 2024 b".toList.drop p).take 4 ∧
       ((mkYearItem "a 2024 b".toList 3 2).year.take 2 = ['1', '9'] ∨
         (mkYearItem "a 2024 b".toList 3 2).year.take 2 = ['2', '0']) ∧
       (∀ c ∈ (mkYearItem "a 2024 b".toList 3 2).year, pyDigit c = true) ∧
       (p = 0 ∨ pythonWordChar ("a 2024 b".toList.getD (p - 1) ' ') = false) ∧
       (p + 4 = "a 2024 b".toList.length ∨
         pythonWordChar ("a 2024 b".toList.getD (p + 4) ' ') = false) ∧
       (∃ u v, "a 2024 b".toList = u ++ (mkYearItem "a 2024 b".toList 3 2).before ++ v) ∧
       (∃ u v, "a 2024 b".toList = u ++ (mkYearItem "a 2024 b".toList 3 2).after ++ v) ∧
       (mkYearItem "a 2024 b".toList 3 2).before.length = min p 3 ∧
       (mkYearItem "a 2024 b".toList 3 2).after.length
         = min ("a 2024 b".toList.length - (p + 4)) 3 ∧
       (mkYearItem "a 2024 b".toList 3 2).before.length ≤ 3 ∧
       (mkYearItem "a 2024 b".toList 3 2).after.length ≤ 3 ∧
       ((mkYearItem "a 2024 b".toList 3 2).before.length < 3 → p < 3) ∧
       ((mkYearItem "a 2024 b".toList 3 2).after.length < 3 →
         "a 2024 b".toList.length < p + 4 + 3)) ∧
    extract_years_with_fixed_context "abc".toList 3 = [] :=
  ⟨(extractor_tuple_spec "a 2024 b".toList 3 (mkYearItem "a 2024 b".toList 3 2)).1
      (List.Mem.head _),
   (extractor_tuple_spec "abc".toList 3 (mkYearItem "a 2024 b".toList 3 2)).2 (by decide)⟩

theorem mem_dedupLoop :
    ∀ (xs : List YearItem) (seen : Finset (Str × Str)) (x : YearItem),
      x ∈ dedupLoop xs seen ↔
        ((x.year, x.snippet) ∉ seen ∧
         ∃ l1 l2, xs = l1 ++ x :: l2 ∧
           ∀ y ∈ l1, (y.year, y.snippet) ≠ (x.year, x.snippet)) := by
  intro xs
  induction xs with
  | nil =>
    intro seen x
    simp [dedupLoop]
  | cons z zs ih =>
    intro seen x
    rw [dedupLoop]
    by_cases hz : (z.year, z.snippet) ∈ seen
    · rw [if_pos hz, ih]
      constructor
      · rintro ⟨hns, l1, l2, heq, hav⟩
        refine ⟨hns, z :: l1, l2, by rw [heq, List.cons_append], fun y hy => ?_⟩
        rcases List.mem_cons.mp hy with rfl | hy2
        · intro hk
          rw [hk] at hz
          exact hns hz
        · exact hav y hy2
      · rintro ⟨hns, l1, l2, heq, hav⟩
        cases l1 with
        | nil =>
          rw [List.nil_append] at heq
          injection heq with h1 h2
          subst h1
          exact absurd hz hns
        | cons w l1 =>
          rw [List.cons_append] at heq
          injection heq with h1 h2
          subst h1
          exact ⟨hns, l1, l2, h2, fun y hy => hav y (List.mem_cons_of_mem _ hy)⟩
    · rw [if_neg hz]
      constructor
      · intro hmem
        rcases List.mem_cons.mp hmem with rfl | hmem2
        · exact ⟨hz, [], zs, rfl, by simp⟩
        · rw [ih] at hmem2
          obtain ⟨hns, l1, l2, heq, hav⟩ := hmem2
          have hxz : (x.year, x.snippet) ≠ (z.year, z.snippet) := by
            intro hk
            rw [hk] at hns
            exact hns (Finset.mem_insert_self _ _)
          have hns2 : (x.year, x.snippet) ∉ seen := fun hc =>
            hns (Finset.mem_insert_of_mem hc)
          refine ⟨hns2, z :: l1, l2, by rw [heq, List.cons_append], fun y hy => ?_⟩
          rcases List.mem_cons.mp hy with rfl | hy2
          · exact fun hk => hxz hk.symm
          · exact hav y hy2
      · rintro ⟨hns, l1, l2, heq, hav⟩
        cases l1 with
        | nil =>
          rw [List.nil_append] at heq
          injection heq with h1 h2
          subst h1
          exact List.Mem.head _
        | cons w l1 =>
          rw [List.cons_append] at heq
          injection heq with h1 h2
          subst h1
          refine List.mem_cons_of_mem _ ((ih _ x).mpr ⟨?_, l1, l2, h2, fun y hy =>
            hav y (List.mem_cons_of_mem _ hy)⟩)
          intro hc
          rcases Finset.mem_insert.mp hc with hk | hk
          · exact hav z (List.Mem.head _) hk.symm
          · exact hns hk

theorem dedupLoop_sublist :
    ∀ (xs : List YearItem) (seen : Finset (Str × Str)), (dedupLoop xs seen).Sublist xs := by
  intro xs
  induction xs with
  | nil => intro seen; rw [dedupLoop]
  | cons z zs ih =>
    intro seen
    rw [dedupLoop]
    by_cases hz : (z.year, z.snippet) ∈ seen
    · rw [if_pos hz]
      exact (ih seen).cons z
    · rw [if_neg hz]
      exact (ih _).cons₂ z

theorem dedupLoop_pairwise_keys :
    ∀ (xs : List YearItem) (seen : Finset (Str × Str)),
      List.Pairwise (fun a b : YearItem => (a.year, a.snippet) ≠ (b.year, b.snippet))
        (dedupLoop xs seen) := by
  intro xs
  induction xs with
  | nil => intro seen; rw [dedupLoop]; exact List.Pairwise.nil
  | cons z zs ih =>
    intro seen
    rw [dedupLoop]
    by_cases hz : (z.year, z.snippet) ∈ seen
    · rw [if_pos hz]
      exact ih seen
    · rw [if_neg hz]
      refine List.Pairwise.cons (fun y hy hk => ?_) (ih _)
      have := ((mem_dedupLoop zs _ y).mp hy).1
      rw [← hk] at this
      exact this (Finset.mem_insert_self _ _)

theorem extract_positions_increasing (text : Str) (W : Nat) :
    List.Pairwise (fun a b : YearItem => a.position < b.position)
      (extract_years_with_fixed_context text W) := by
  rw [extract_years_with_fixed_context, List.pairwise_map]
  exact ((List.pairwise_lt_range text.length).filter (isYearTokenAt text)).imp (fun h => h)

/-- C5: the deduplicated Extractor output has no two items with the same
(year, full-window) key; an item survives exactly when it is the first
occurrence of its key in the raw extraction sequence (later duplicates are
dropped); the output is a subsequence of the raw sequence; and its items
are in strictly increasing order of source position. -/
theorem extractor_dedup_spec (text : Str) :
    List.Pairwise (fun a b : YearItem => (a.year, a.snippet) ≠ (b.year, b.snippet))
      (dedup_extract text) ∧
    (∀ x : YearItem, x ∈ dedup_extract text ↔
      ∃ l1 l2, extract_years_with_fixed_context text 30 = l1 ++ x :: l2 ∧
        ∀ y ∈ l1, (y.year, y.snippet) ≠ (x.year, x.snippet)) ∧
    (dedup_extract text).Sublist (extract_years_with_fixed_context text 30) ∧
    List.Pairwise (fun a b : YearItem => a.position < b.position) (dedup_extract text) := by
  refine ⟨dedupLoop_pairwise_keys _ _, fun x => ?_, dedupLoop_sublist _ _,
    (extract_positions_increasing text 30).sublist (dedupLoop_sublist _ _)⟩
  rw [dedup_extract, mem_dedupLoop]
  simp
